import Mathlib

/-!
Shallow embedding of the `clifx` terminal-effects program (Rust sources
`src/main.rs`, `src/effects/shine.rs`, `src/effects/shine2d.rs`,
`src/effects/twinkle.rs`) together with theorems settling the spec claims.

Rust `f32` arithmetic is modelled over `ℚ` (exact arithmetic); every value the
theorems evaluate at is a small dyadic rational on which the `f32` operations
of the source are exact, except in the 2D-shine distance formula where the
trigonometry forces a model over `ℝ`.  Rust numeric casts are modelled
explicitly: `as u8` / `as isize` on a float truncates toward zero and
saturates.
-/

namespace Clifx

/-- Rust `f32::clamp(lo, hi)`. -/
def clampQ (x lo hi : ℚ) : ℚ := min (max x lo) hi

/-- Rust float-to-integer cast: truncation toward zero. -/
def truncQ (q : ℚ) : ℤ := if q < 0 then -⌊-q⌋ else ⌊q⌋

/-- Rust `as u8` cast of an `f32`: truncate toward zero, saturate into `[0, 255]`. -/
def rustAsU8 (q : ℚ) : ℕ := min (truncQ q).toNat 255

/-- An RGB colour as constructed by `Color::Rgb { r, g, b }` (all call sites of
`blend_colors` pass the `Rgb` variant, whose channels are `u8`). -/
@[ext]
structure RGB where
  r : Fin 256
  g : Fin 256
  b : Fin 256
deriving DecidableEq

/-- One channel of `blend_colors` (src/effects/shine.rs, lines 224–226):
`(base as f32 * (1.0 - intensity) + shine as f32 * intensity) as u8`. -/
def blendChannel (base shine : ℕ) (intensity : ℚ) : ℕ :=
  rustAsU8 ((base : ℚ) * (1 - intensity) + (shine : ℚ) * intensity)

/-- `min n 255 < 256`. -/
theorem rustAsU8_lt (q : ℚ) : rustAsU8 q < 256 :=
  Nat.lt_succ_of_le (min_le_right _ _)

/-- `blend_colors` (src/effects/shine.rs, lines 211–233): clamp the intensity
to `[0,1]`, then blend each channel. -/
def blend_colors (base shine : RGB) (intensity : ℚ) : RGB :=
  let i := clampQ intensity 0 1
  { r := ⟨blendChannel base.r shine.r i, rustAsU8_lt _⟩
    g := ⟨blendChannel base.g shine.g i, rustAsU8_lt _⟩
    b := ⟨blendChannel base.b shine.b i, rustAsU8_lt _⟩ }

/-- `EasingFunction` (src/effects/shine.rs, lines 36–41; the copies in
twinkle.rs and shine2d.rs are identical). -/
inductive EasingFunction where
  | Linear
  | EaseIn
  | EaseOut
  | EaseInOut
deriving DecidableEq

/-- `EasingFunction::apply` (src/effects/shine.rs, lines 44–57). -/
def EasingFunction.apply (e : EasingFunction) (t : ℚ) : ℚ :=
  match e with
  | .Linear => t
  | .EaseIn => t * t
  | .EaseOut => 1 - (1 - t) * (1 - t)
  | .EaseInOut =>
    if t < 1/2 then 2 * t * t else 1 - (-2 * t + 2) ^ 2 / 2

/-- `total_frames` (src/effects/shine.rs, line 75; same expression in
twinkle.rs line 182 and shine2d.rs line 181): `(duration / speed) as usize`,
integer division on `u64`. -/
def shineTotalFrames (duration speed : ℕ) : ℕ := duration / speed

/-- The same expression with the Rust divide-by-zero panic made explicit:
`u64` division panics when the divisor is zero, so `none` models the panic
raised at the top of the effect before any frame is rendered. -/
def totalFramesPanicking (duration speed : ℕ) : Option ℕ :=
  if speed = 0 then none else some (duration / speed)

/-- The sequence of frame indices run by one cycle of the frame loop
(src/effects/shine.rs, line 114: `for frame in 0..total_frames`). -/
def shineFrameIndices (duration speed : ℕ) : List ℕ :=
  List.range (shineTotalFrames duration speed)

/-- `ShineStart` (src/effects/shine.rs, lines 30–33). -/
inductive ShineStart where
  | Beginning
  | End
deriving DecidableEq

/-- The per-frame sweep position (src/effects/shine.rs, lines 139–149):
`total_range = text_len + 2*padding`, then for `Beginning`
`(p * (total_range - 1.0)) as isize - padding`, and mirrored with `1 - p`
for `End`; `p` is the ping-pong (back-and-forth) progress. -/
def shinePosition (start : ShineStart) (p : ℚ) (textLen padding : ℕ) : ℤ :=
  match start with
  | .Beginning =>
    truncQ (p * (((textLen + 2 * padding : ℕ) : ℚ) - 1)) - (padding : ℤ)
  | .End =>
    truncQ ((1 - p) * (((textLen + 2 * padding : ℕ) : ℚ) - 1)) - (padding : ℤ)

/-- Distance of character `i` from the shine (src/effects/shine.rs, line 169):
`(i as isize - shine_position).abs()`. -/
def charDist (i : ℕ) (pos : ℤ) : ℤ := |(i : ℤ) - pos|

/-- The colour printed for the character at index `i` of a frame
(src/effects/shine.rs, lines 168–188): distance from the shine, radius
`width`; inside the radius the intensity is `1 - d/width` with blur, else `1`
at distance `0` and `0` otherwise; the intensity is multiplied by the opacity
and blended; outside the radius the base colour is printed unmodified. -/
def renderCharColor (i : ℕ) (pos : ℤ) (width : ℕ) (blur : Bool) (opacity : ℚ)
    (base shine : RGB) : RGB :=
  if ((charDist i pos : ℤ) : ℚ) ≤ (width : ℚ) then
    blend_colors base shine
      ((if blur then 1 - ((charDist i pos : ℤ) : ℚ) / (width : ℚ)
        else if charDist i pos = 0 then 1 else 0) * opacity)
  else base

/-- `ShineConfig` fields relevant to configuration-time validation
(src/effects/shine.rs, lines 10–27; only the numeric fields the claims touch
are carried, everything else is behaviourally inert for them). -/
structure ShineConfigV where
  speed : ℕ
  duration : ℕ
  pausePosition : ℚ
  opacity : ℚ

/-- Construction of the `ShineConfig` in `main` (src/main.rs, lines 285–302):
the only processing applied to the parsed values is
`pause_position.clamp(0.0, 1.0)` and `opacity.clamp(0.0, 1.0)`; `speed` and
`duration` are passed through with no validation. -/
def mkShineConfigV (speed duration : ℕ) (pausePosition opacity : ℚ) : ShineConfigV :=
  { speed := speed
    duration := duration
    pausePosition := clampQ pausePosition 0 1
    opacity := clampQ opacity 0 1 }

/-! ## Twinkle effect (src/effects/twinkle.rs) -/

/-- `TwinkleConfig` (src/effects/twinkle.rs, lines 12–24); colours as channel
triples, floats as `ℚ`. -/
structure TwinkleConfig where
  baseColor : RGB
  twinkleColor : RGB
  speed : ℕ
  easing : EasingFunction
  duration : ℕ
  cycles : ℕ
  twinkleRatio : Option ℚ
  minTwinkleCount : Option ℕ
  maxTwinkleCount : Option ℕ
  twinklingPercentage : ℚ
  starMode : Bool

/-- The period-anchor scan (src/effects/twinkle.rs, lines 158–162):
enumerate the characters and keep the indices of literal `'.'`. -/
def periodPositions (text : List Char) : List ℕ :=
  (text.enum.filterMap fun ic => if ic.2 = '.' then some ic.1 else none)

/-- The observable output of `apply_twinkle_effect` before the animation loop
(src/effects/twinkle.rs, lines 144–179): empty text prints a bare newline;
text with no period anchors is printed once, unmodified, in the base colour,
and the function returns `Ok` without entering the loop; otherwise the
animation runs. -/
inductive TwinkleOutput where
  | emptyLine
  | staticText (chars : List Char) (color : RGB)
  | animation
deriving DecidableEq

/-- The pre-loop control flow of `apply_twinkle_effect`
(src/effects/twinkle.rs, lines 149–179). -/
def twinkleOutput (text : List Char) (cfg : TwinkleConfig) : TwinkleOutput :=
  if text.length = 0 then .emptyLine
  else if periodPositions text = [] then .staticText text cfg.baseColor
  else .animation

/-- Rust `rng.gen_range(lo..=hi)` on `usize`: panics (`none`) when the range
is empty, otherwise yields a value of the range; the oracle `c` selects which
one. -/
def genRangeIncl (lo hi : ℕ) (c : ℕ) : Option ℕ :=
  if lo ≤ hi then some (lo + c % (hi + 1 - lo)) else none

/-- Rust `f32::round` for the non-negative values arising here: round half
away from zero. -/
def rustRound (q : ℚ) : ℤ := ⌊q + 1/2⌋

/-- The per-frame twinkle-count draw (src/effects/twinkle.rs, lines 217–229),
branch for branch: both bounds set ⇒ `gen_range(min..=max.min(n))` (which
panics, `none`, on an empty range); else a set ratio ⇒
`((n as f32 * ratio).round() as usize).max(1)`; else a set minimum ⇒
`min.min(n)`; else a set maximum ⇒ `max.min(n)`; else `(n as f32 * 0.3).round()`. -/
def twinkleCountDraw (cfg : TwinkleConfig) (n : ℕ) (c : ℕ) : Option ℕ :=
  match cfg.minTwinkleCount, cfg.maxTwinkleCount with
  | some mn, some mx => genRangeIncl mn (min mx n) c
  | mnOpt, mxOpt =>
    match cfg.twinkleRatio with
    | some ratio => some (max (rustRound ((n : ℚ) * ratio)).toNat 1)
    | none =>
      match mnOpt with
      | some mn => some (min mn n)
      | none =>
        match mxOpt with
        | some mx => some (min mx n)
        | none => some (rustRound ((n : ℚ) * (3/10))).toNat

/-- `TwinkleState` (src/effects/twinkle.rs, lines 70–74). -/
structure TwinkleState where
  phase : ℚ
  duration : ℚ
  pauseDuration : ℚ

/-- The anchor positions claimed by the slot map (the key set of the
`twinkle_states` hash map). -/
def slotKeys (l : List (ℕ × TwinkleState)) : List ℕ := l.map Prod.fst

/-- `HashMap::insert`: replace the value when the key is present, otherwise
add the entry (the map is modelled as an association list with distinct keys). -/
def insertState (p : ℕ) (s : TwinkleState) (l : List (ℕ × TwinkleState)) :
    List (ℕ × TwinkleState) :=
  if l.any (fun ps => ps.1 = p) then
    l.map (fun ps => if ps.1 = p then (p, s) else ps)
  else (p, s) :: l

/-- The random draws one frame of the twinkle loop can consume: the activity
gate `rng.gen::<f32>() < twinkling_percentage`, the count draw, and per new
slot an index choice into `available_positions` plus a duration and a pause
ratio. -/
structure FrameRand where
  gate : Bool
  countChoice : ℕ
  pick : ℕ → ℕ
  durChoice : ℕ → ℚ
  pauseChoice : ℕ → ℚ

/-- The `retain` pass (src/effects/twinkle.rs, lines 232–235): advance every
slot phase by `1/duration` and keep the slots with `phase ≤ 1`. -/
def twinkleRetain (states : List (ℕ × TwinkleState)) : List (ℕ × TwinkleState) :=
  (states.map fun ps =>
    (ps.1, { ps.2 with phase := ps.2.phase + 1 / ps.2.duration })).filter
    fun ps => ps.2.phase ≤ 1

/-- `available_positions` (src/effects/twinkle.rs, lines 240–244): the anchors
not currently claimed by a slot. -/
def twinkleAvail (anchors : List ℕ) (states1 : List (ℕ × TwinkleState)) : List ℕ :=
  anchors.filter fun p => !(states1.any fun ps => ps.1 = p)

/-- The spawn loop (src/effects/twinkle.rs, lines 246–262): run
`tc − current` iterations; each one, when `available_positions` is non-empty,
picks an index into it (the list is computed once, before the loop) and
inserts a fresh slot at that anchor. -/
def twinkleSpawn (anchors : List ℕ) (r : FrameRand) (tc : ℕ)
    (states1 : List (ℕ × TwinkleState)) : List (ℕ × TwinkleState) :=
  (List.range (tc - states1.length)).foldl
    (fun st j =>
      if h : (twinkleAvail anchors states1).length ≠ 0 then
        insertState
          ((twinkleAvail anchors states1).get
            ⟨r.pick j % (twinkleAvail anchors states1).length,
             Nat.mod_lt _ (Nat.pos_of_ne_zero h)⟩)
          ⟨0, r.durChoice j, r.pauseChoice j⟩ st
      else st)
    states1

/-- The body of one active frame after the count draw succeeded
(src/effects/twinkle.rs, lines 231–263): retain, then spawn only when below
the target count. -/
def twinkleFrameBody (anchors : List ℕ) (r : FrameRand) (tc : ℕ)
    (states : List (ℕ × TwinkleState)) : List (ℕ × TwinkleState) :=
  if (twinkleRetain states).length < tc then
    twinkleSpawn anchors r tc (twinkleRetain states)
  else twinkleRetain states

/-- One frame of the twinkle state update (src/effects/twinkle.rs,
lines 212–264): when the gate fires, draw the target count (`none` models the
`gen_range` panic and propagates it) and run the retain/spawn body; when it
does not, the slot map is left untouched. -/
def twinkleFrameStep (cfg : TwinkleConfig) (anchors : List ℕ) (r : FrameRand)
    (states : List (ℕ × TwinkleState)) : Option (List (ℕ × TwinkleState)) :=
  if r.gate then
    (twinkleCountDraw cfg anchors.length r.countChoice).map
      (twinkleFrameBody anchors r · states)
  else some states

/-- The twinkle slot map after `n` frames of the loop, starting from the
empty map (src/effects/twinkle.rs, line 202); `none` propagates a panic. -/
def twinkleRun (cfg : TwinkleConfig) (anchors : List ℕ) (rs : ℕ → FrameRand) :
    ℕ → Option (List (ℕ × TwinkleState))
  | 0 => some []
  | n + 1 => (twinkleRun cfg anchors rs n).bind (twinkleFrameStep cfg anchors (rs n))

/-- The two structural invariants of the slot map: the claimed anchors are
pairwise distinct and every one of them is an eligible `'.'` anchor. -/
def SlotInv (anchors : List ℕ) (st : List (ℕ × TwinkleState)) : Prop :=
  (slotKeys st).Nodup ∧ ∀ k ∈ slotKeys st, k ∈ anchors

/-! ## 2D shine (src/effects/shine2d.rs) -/

/-- The general-angle branch of the distance computation in
`calculate_2d_shine_intensity` (src/effects/shine2d.rs, lines 136–140):
`|cos θ·x + sin θ·y − shine_line| / sqrt(cos θ·cos θ + sin θ·sin θ)` with
`θ = angle.to_radians()`. -/
noncomputable def general2dDistance (x y : ℕ) (shineLine : ℝ) (angle : ℚ) : ℝ :=
  |Real.cos ((angle : ℝ) * Real.pi / 180) * (x : ℝ) +
      Real.sin ((angle : ℝ) * Real.pi / 180) * (y : ℝ) - shineLine| /
    Real.sqrt (Real.cos ((angle : ℝ) * Real.pi / 180) * Real.cos ((angle : ℝ) * Real.pi / 180) +
      Real.sin ((angle : ℝ) * Real.pi / 180) * Real.sin ((angle : ℝ) * Real.pi / 180))

/-- The `distance` computation of `calculate_2d_shine_intensity`
(src/effects/shine2d.rs, lines 129–141): `|y − shine_line|` when
`|angle| < 0.01`, `|x − shine_line|` when `|angle − 90| < 0.01`, otherwise the
general perpendicular-distance formula. -/
noncomputable def shine2dDistance (x y : ℕ) (shineLine : ℝ) (angle : ℚ) : ℝ :=
  if |angle| < 1/100 then |(y : ℝ) - shineLine|
  else if |angle - 90| < 1/100 then |(x : ℝ) - shineLine|
  else general2dDistance x y shineLine angle

/-! ## Helper lemmas -/

theorem clampQ_of_nonpos {x : ℚ} (h : x ≤ 0) : clampQ x 0 1 = 0 := by
  simp [clampQ, max_eq_right h]

theorem clampQ_of_one_le {x : ℚ} (h : 1 ≤ x) : clampQ x 0 1 = 1 := by
  have h0 : (0 : ℚ) ≤ x := le_trans (by norm_num) h
  simp [clampQ, max_eq_left h0, min_eq_right h]

theorem clampQ_of_mem {x : ℚ} (h0 : 0 ≤ x) (h1 : x ≤ 1) : clampQ x 0 1 = x := by
  simp [clampQ, max_eq_left h0, min_eq_left h1]

theorem truncQ_of_nonneg {q : ℚ} (h : 0 ≤ q) : truncQ q = ⌊q⌋ := by
  simp [truncQ, not_lt.mpr h]

theorem rustAsU8_natCast {n : ℕ} (h : n ≤ 255) : rustAsU8 (n : ℚ) = n := by
  have : truncQ (n : ℚ) = (n : ℤ) := by
    rw [truncQ_of_nonneg (by positivity)]; exact Int.floor_natCast n
  simp [rustAsU8, this, min_eq_left h]

theorem blendChannel_zero {b s : ℕ} (h : b ≤ 255) : blendChannel b s 0 = b := by
  have : (b : ℚ) * (1 - 0) + (s : ℚ) * 0 = (b : ℚ) := by ring
  rw [blendChannel, this, rustAsU8_natCast h]

theorem blendChannel_one {b s : ℕ} (h : s ≤ 255) : blendChannel b s 1 = s := by
  have : (b : ℚ) * (1 - 1) + (s : ℚ) * 1 = (s : ℚ) := by ring
  rw [blendChannel, this, rustAsU8_natCast h]

theorem blend_colors_zero (base shine : RGB) : blend_colors base shine 0 = base := by
  have hc : clampQ 0 0 1 = 0 := clampQ_of_mem le_rfl (by norm_num)
  ext <;> simp [blend_colors, hc] <;>
    first
    | exact blendChannel_zero (Nat.lt_succ_iff.mp base.r.isLt)
    | exact blendChannel_zero (Nat.lt_succ_iff.mp base.g.isLt)
    | exact blendChannel_zero (Nat.lt_succ_iff.mp base.b.isLt)

theorem blend_colors_one (base shine : RGB) : blend_colors base shine 1 = shine := by
  have hc : clampQ 1 0 1 = 1 := clampQ_of_mem (by norm_num) le_rfl
  ext <;> simp [blend_colors, hc] <;>
    first
    | exact blendChannel_one (Nat.lt_succ_iff.mp shine.r.isLt)
    | exact blendChannel_one (Nat.lt_succ_iff.mp shine.g.isLt)
    | exact blendChannel_one (Nat.lt_succ_iff.mp shine.b.isLt)

/-! ## C4 — easing-function contract -/

/-- C4: every `EasingFunction` variant maps `[0,1]` into `[0,1]`, fixes the
endpoints (`apply 0 = 0`, `apply 1 = 1`), and is non-decreasing over the
sample points `0, 0.1, …, 1`. -/
theorem easing_contract (e : EasingFunction) (t : ℚ) (h0 : 0 ≤ t) (h1 : t ≤ 1) :
    (0 ≤ e.apply t ∧ e.apply t ≤ 1) ∧
    e.apply 0 = 0 ∧ e.apply 1 = 1 ∧
    ∀ k : ℕ, k < 10 → e.apply ((k : ℚ) / 10) ≤ e.apply (((k : ℚ) + 1) / 10) := by
  refine ⟨?_, ?_, ?_, ?_⟩
  · cases e with
    | Linear => exact ⟨h0, h1⟩
    | EaseIn =>
      simp only [EasingFunction.apply]
      exact ⟨by positivity, by nlinarith [mul_le_mul_of_nonneg_left h1 h0]⟩
    | EaseOut =>
      simp only [EasingFunction.apply]
      constructor
      · nlinarith [mul_le_mul_of_nonneg_left (by linarith : 1 - t ≤ 1)
          (by linarith : (0:ℚ) ≤ 1 - t)]
      · nlinarith [mul_self_nonneg (1 - t)]
    | EaseInOut =>
      simp only [EasingFunction.apply]
      split_ifs with h
      · exact ⟨by positivity,
          by nlinarith [mul_le_mul_of_nonneg_left (le_of_lt h) h0]⟩
      · push_neg at h
        constructor
        · nlinarith [mul_nonneg (by linarith : (0:ℚ) ≤ 2*t - 1)
            (by linarith : (0:ℚ) ≤ 2 - 2*t)]
        · nlinarith [sq_nonneg (-2 * t + 2)]
  · cases e <;> norm_num [EasingFunction.apply]
  · cases e <;> norm_num [EasingFunction.apply]
  · intro k hk
    cases e <;> interval_cases k <;> norm_num [EasingFunction.apply]

theorem easing_contract_witness :
    0 ≤ EasingFunction.apply .EaseInOut (1/2) ∧ EasingFunction.apply .EaseInOut (1/2) ≤ 1 :=
  (easing_contract .EaseInOut (1/2) (by norm_num) (by norm_num)).1

/-! ## C5 — blend_colors contract -/

/-- C5: `blend_colors` clamps the intensity to `[0,1]` and blends each channel
by `base·(1−intensity) + target·intensity` truncated; at intensity `0` the
result is exactly `base`, at `1` exactly `target`, intensities outside `[0,1]`
behave as the nearest boundary, and the midpoint blend of black and white is
`(127,127,127)`. -/
theorem blend_colors_contract (base target : RGB) :
    blend_colors base target 0 = base ∧
    blend_colors base target 1 = target ∧
    (∀ i : ℚ, i ≤ 0 → blend_colors base target i = base) ∧
    (∀ i : ℚ, 1 ≤ i → blend_colors base target i = target) ∧
    blend_colors ⟨0, 0, 0⟩ ⟨255, 255, 255⟩ (1/2) = ⟨127, 127, 127⟩ := by
  have hmid : blend_colors ⟨0, 0, 0⟩ ⟨255, 255, 255⟩ (1/2) = ⟨127, 127, 127⟩ := by
    have hc : clampQ (1/2) 0 1 = 1/2 := clampQ_of_mem (by norm_num) (by norm_num)
    have hf : ⌊(255/2 : ℚ)⌋ = 127 := by
      rw [Int.floor_eq_iff]; norm_num
    have hval : blendChannel 0 255 (clampQ (1/2) 0 1) = 127 := by
      rw [hc, blendChannel]
      have he : ((0:ℕ):ℚ) * (1 - 1/2) + ((255:ℕ):ℚ) * (1/2) = 255/2 := by norm_num
      rw [he, rustAsU8, truncQ_of_nonneg (by norm_num : (0:ℚ) ≤ 255/2), hf]
      rfl
    refine RGB.ext ?_ ?_ ?_ <;> exact Fin.ext hval
  refine ⟨blend_colors_zero base target, blend_colors_one base target, ?_, ?_, hmid⟩
  · intro i hi
    have : blend_colors base target i = blend_colors base target 0 := by
      simp [blend_colors, clampQ_of_nonpos hi, clampQ_of_mem (le_refl (0:ℚ)) (by norm_num)]
    rw [this, blend_colors_zero]
  · intro i hi
    have : blend_colors base target i = blend_colors base target 1 := by
      simp [blend_colors, clampQ_of_one_le hi, clampQ_of_mem (by norm_num) (le_refl (1:ℚ))]
    rw [this, blend_colors_one]

theorem blend_colors_contract_witness :
    blend_colors ⟨10, 20, 30⟩ ⟨200, 100, 50⟩ (-(1/2)) = ⟨10, 20, 30⟩ :=
  (blend_colors_contract ⟨10, 20, 30⟩ ⟨200, 100, 50⟩).2.2.1 (-(1/2)) (by norm_num)

/-! ## C1 — frame count has no lower bound of one -/

/-- C1 (counterexample): at `duration = 50`, `speed = 100` the derived frame
count is `0`, not `max 1 (duration / speed) = 1`, and the frame loop runs
zero times, so no frame at all is emitted. -/
theorem total_frames_cex :
    shineTotalFrames 50 100 ≠ max 1 (50 / 100) ∧ shineFrameIndices 50 100 = [] := by
  decide

/-- C1 (amended): `total_frames` is the plain integer division
`duration / speed` with no lower bound; whenever `0 < duration < speed` it is
`0` and the per-cycle frame loop emits no frame at all (the renderer does not
degrade to a single static frame). -/
theorem total_frames_amended (duration speed : ℕ) (_hs : 0 < speed) :
    shineTotalFrames duration speed = duration / speed ∧
    (0 < duration → duration < speed →
      shineTotalFrames duration speed = 0 ∧ shineFrameIndices duration speed = []) := by
  refine ⟨rfl, fun _ hlt => ?_⟩
  have h0 : duration / speed = 0 := Nat.div_eq_of_lt hlt
  exact ⟨h0, by simp [shineFrameIndices, shineTotalFrames, h0]⟩

theorem total_frames_amended_witness : shineTotalFrames 50 100 = 0 :=
  ((total_frames_amended 50 100 (by norm_num)).2 (by norm_num) (by norm_num)).1

/-! ## C2 — speed = 0 is not rejected, it panics -/

/-- C2: the CLI constructs the `ShineConfig` with `speed` passed through
unvalidated (only `pause_position` and `opacity` are clamped), and at
`speed = 0` the frame-count division `duration / speed` at the top of the
effect panics (`none` models the Rust divide-by-zero panic) instead of being
surfaced as a construction-time error result. -/
theorem speed_zero_panics (duration : ℕ) (pausePosition opacity : ℚ) :
    (mkShineConfigV 0 duration pausePosition opacity).speed = 0 ∧
    totalFramesPanicking duration 0 = none :=
  ⟨rfl, rfl⟩

/-! ## C6 — 1D sweep position range -/

theorem shinePosition_beginning_eq_floor (q : ℚ) (hq : 0 ≤ q) :
    shinePosition .Beginning q 12 5 = ⌊q * 21⌋ - 5 := by
  have h21 : (((12 + 2 * 5 : ℕ) : ℚ) - 1) = 21 := by norm_num
  simp only [shinePosition, h21]
  rw [truncQ_of_nonneg (by positivity)]
  norm_num

/-- C6: with `Beginning` start the sweep position is the truncation of
`ping_pong_progress · (text_len + 2·padding − 1)` minus the padding (mirrored
via `1 − progress` for `End`), and for `text_len = 12`, `padding = 5` it stays
in `[−5, 16]` and attains each of those 22 integer positions. -/
theorem sweep_position_range (p : ℚ) (h0 : 0 ≤ p) (h1 : p ≤ 1) :
    (shinePosition .Beginning p 12 5 = ⌊p * 21⌋ - 5 ∧
     -5 ≤ shinePosition .Beginning p 12 5 ∧
     shinePosition .Beginning p 12 5 ≤ 16 ∧
     shinePosition .End p 12 5 = shinePosition .Beginning (1 - p) 12 5) ∧
    ∀ k : ℤ, -5 ≤ k → k ≤ 16 →
      ∃ q : ℚ, 0 ≤ q ∧ q ≤ 1 ∧ shinePosition .Beginning q 12 5 = k := by
  constructor
  · refine ⟨shinePosition_beginning_eq_floor p h0, ?_, ?_, ?_⟩
    · rw [shinePosition_beginning_eq_floor p h0]
      have : (0:ℤ) ≤ ⌊p * 21⌋ := Int.floor_nonneg.mpr (by positivity)
      linarith
    · rw [shinePosition_beginning_eq_floor p h0]
      have hle : p * 21 ≤ 21 := by nlinarith
      have : ⌊p * 21⌋ ≤ 21 := by
        calc ⌊p * 21⌋ ≤ ⌊(21:ℚ)⌋ := Int.floor_le_floor hle
        _ = 21 := by norm_num
      linarith
    · simp only [shinePosition]
  · intro k hk1 hk2
    have hk1Q : (-5 : ℚ) ≤ (k : ℚ) := by exact_mod_cast hk1
    have hk2Q : (k : ℚ) ≤ 16 := by exact_mod_cast hk2
    refine ⟨((k : ℚ) + 5) / 21, by linarith, by linarith, ?_⟩
    rw [shinePosition_beginning_eq_floor _ (by linarith)]
    have hmul : ((k : ℚ) + 5) / 21 * 21 = (k : ℚ) + 5 := by
      field_simp
    rw [hmul]
    have : ⌊(k : ℚ) + 5⌋ = k + 5 := by
      rw [show (k : ℚ) + 5 = ((k + 5 : ℤ) : ℚ) by push_cast; ring, Int.floor_intCast]
    rw [this]
    ring

theorem sweep_position_range_witness :
    -5 ≤ shinePosition .Beginning (1/2) 12 5 ∧ shinePosition .Beginning (1/2) 12 5 ≤ 16 :=
  ⟨((sweep_position_range (1/2) (by norm_num) (by norm_num)).1).2.1,
   ((sweep_position_range (1/2) (by norm_num) (by norm_num)).1).2.2.1⟩

/-! ## C7 — per-character shine intensity -/

/-- C7: a character farther than `width` from the shine renders in the base
colour unmodified; within the radius the blended intensity is
`(1 − d/width)·opacity` with blur, `1·opacity` at distance `0` without blur,
and `0·opacity` otherwise; and concretely for `width = 2`, `blur = false`,
`padding = 5`, `Beginning` start at progress `0` the sweep sits at `−5`, so
every character of a 12-character line renders in the pure base colour
`(255,0,0)`. -/
theorem render_char_contract :
    (∀ (i : ℕ) (pos : ℤ) (w : ℕ) (blur : Bool) (op : ℚ) (b s : RGB),
      (w : ℤ) < charDist i pos → renderCharColor i pos w blur op b s = b) ∧
    (∀ (i : ℕ) (pos : ℤ) (w : ℕ) (op : ℚ) (b s : RGB),
      0 < w → charDist i pos ≤ (w : ℤ) →
      renderCharColor i pos w true op b s =
        blend_colors b s ((1 - ((charDist i pos : ℤ) : ℚ) / (w : ℚ)) * op)) ∧
    (∀ (pos : ℤ) (w : ℕ) (op : ℚ) (b s : RGB) (i : ℕ), (i : ℤ) = pos →
      renderCharColor i pos w false op b s = blend_colors b s (1 * op)) ∧
    (∀ (i : ℕ) (pos : ℤ) (w : ℕ) (op : ℚ) (b s : RGB),
      0 < charDist i pos → charDist i pos ≤ (w : ℤ) →
      renderCharColor i pos w false op b s = blend_colors b s (0 * op)) ∧
    (∀ (i : ℕ) (op : ℚ) (s : RGB),
      renderCharColor i (shinePosition .Beginning 0 12 5) 2 false op ⟨255, 0, 0⟩ s
        = ⟨255, 0, 0⟩) := by
  refine ⟨?_, ?_, ?_, ?_, ?_⟩
  · intro i pos w blur op b s h
    have : ¬ (((charDist i pos : ℤ) : ℚ) ≤ (w : ℚ)) := by
      push_neg
      exact_mod_cast h
    rw [renderCharColor, if_neg this]
  · intro i pos w op b s hw h
    have hle : ((charDist i pos : ℤ) : ℚ) ≤ (w : ℚ) := by exact_mod_cast h
    rw [renderCharColor, if_pos hle, if_pos rfl]
  · intro pos w op b s i h
    have hd : charDist i pos = 0 := by simp [charDist, h]
    have hle : ((charDist i pos : ℤ) : ℚ) ≤ (w : ℚ) := by
      rw [hd]; positivity
    rw [renderCharColor, if_pos hle]
    simp [hd]
  · intro i pos w op b s hd h
    have hle : ((charDist i pos : ℤ) : ℚ) ≤ (w : ℚ) := by exact_mod_cast h
    rw [renderCharColor, if_pos hle]
    simp [Bool.false_eq_true, if_neg (by omega : ¬ charDist i pos = 0)]
  · intro i op s
    have hpos : shinePosition .Beginning 0 12 5 = -5 := by
      rw [shinePosition_beginning_eq_floor 0 le_rfl]
      norm_num
    rw [hpos]
    have hd : charDist i (-5) = (i : ℤ) + 5 := by
      rw [charDist, sub_neg_eq_add, abs_of_nonneg (by positivity)]
    have : ¬ (((charDist i (-5) : ℤ) : ℚ) ≤ ((2 : ℕ) : ℚ)) := by
      rw [hd]
      push_cast
      have : (0:ℚ) ≤ (i : ℚ) := by positivity
      push_neg
      linarith
    rw [renderCharColor, if_neg this]

theorem render_char_contract_witness :
    renderCharColor 0 (shinePosition .Beginning 0 12 5) 2 false 1 ⟨255, 0, 0⟩ ⟨255, 255, 255⟩
      = ⟨255, 0, 0⟩ :=
  render_char_contract.2.2.2.2 0 1 ⟨255, 255, 255⟩

/-! ## C9 — twinkle with no periods prints once -/

theorem periodPositions_enumFrom_nil (l : List Char) : ∀ n : ℕ, '.' ∉ l →
    ((List.enumFrom n l).filterMap fun ic => if ic.2 = '.' then some ic.1 else none) = [] := by
  induction l with
  | nil => intro n _; rfl
  | cons c cs ih =>
    intro n h
    simp only [List.mem_cons, not_or] at h
    have hc : c ≠ '.' := Ne.symm h.1
    simp only [List.enumFrom, List.filterMap_cons]
    rw [if_neg hc]
    exact ih (n + 1) h.2

/-- C9: on non-empty text containing no literal `'.'`, `apply_twinkle_effect`
prints the text exactly once, unmodified and in the base colour, and returns
without entering the animation loop. -/
theorem twinkle_no_periods (text : List Char) (cfg : TwinkleConfig)
    (hne : text ≠ []) (hnp : '.' ∉ text) :
    twinkleOutput text cfg = .staticText text cfg.baseColor := by
  have hpp : periodPositions text = [] := periodPositions_enumFrom_nil text 0 hnp
  have hlen : ¬ (text.length = 0) := fun h => hne (List.length_eq_zero.mp h)
  rw [twinkleOutput, if_neg hlen, if_pos hpp]

theorem twinkle_no_periods_witness :
    twinkleOutput ['a', 'b', 'c']
      ⟨⟨255, 255, 255⟩, ⟨255, 255, 0⟩, 100, .Linear, 3000, 1, some (3/10), none, none,
        4/5, false⟩
      = .staticText ['a', 'b', 'c'] ⟨255, 255, 255⟩ :=
  twinkle_no_periods ['a', 'b', 'c'] _ (by simp) (by simp)

/-! ## C10 — twinkle-count draw definedness -/

/-- C10: with both bounds set, the twinkle-count draw ranges over
`min ..= min(max, anchors)` and is well-defined (its empty-range panic is
unreachable) exactly when `min ≤ min(max, anchors)`; with
`min_twinkle_count = 5`, `max_twinkle_count = 10` and only 3 anchors the
range is empty and the draw panics. -/
theorem twinkle_count_draw_defined :
    (∀ (cfg : TwinkleConfig) (mn mx n c : ℕ),
      cfg.minTwinkleCount = some mn → cfg.maxTwinkleCount = some mx →
      ((twinkleCountDraw cfg n c).isSome ↔ mn ≤ min mx n)) ∧
    twinkleCountDraw
      ⟨⟨255, 255, 255⟩, ⟨255, 255, 0⟩, 100, .Linear, 3000, 1, none, some 5, some 10,
        4/5, false⟩ 3 0 = none := by
  constructor
  · intro cfg mn mx n c hmn hmx
    obtain ⟨bc, tc, sp, ea, du, cy, tr, mnc, mxc, tp, sm⟩ := cfg
    dsimp only at hmn hmx
    subst hmn hmx
    dsimp only [twinkleCountDraw]
    rw [genRangeIncl]
    split_ifs with h
    · simpa using h
    · simpa using h
  · rfl

theorem twinkle_count_draw_defined_witness :
    (twinkleCountDraw
      ⟨⟨255, 255, 255⟩, ⟨255, 255, 0⟩, 100, .Linear, 3000, 1, none, some 1, some 3,
        4/5, false⟩ 3 0).isSome ↔ 1 ≤ min 3 3 :=
  twinkle_count_draw_defined.1 _ 1 3 3 0 rfl rfl

/-! ## C3 — twinkle slot-map invariants -/

theorem slotKeys_length (l : List (ℕ × TwinkleState)) : (slotKeys l).length = l.length :=
  List.length_map l Prod.fst

theorem any_fst_eq (l : List (ℕ × TwinkleState)) (p : ℕ) :
    (l.any fun ps => ps.1 = p) = true ↔ p ∈ slotKeys l := by
  rw [List.any_eq_true, slotKeys]
  constructor
  · rintro ⟨x, hx, hpx⟩
    rw [decide_eq_true_eq] at hpx
    exact List.mem_map.mpr ⟨x, hx, hpx⟩
  · intro hm
    obtain ⟨x, hx, hfx⟩ := List.mem_map.mp hm
    exact ⟨x, hx, by rw [decide_eq_true_eq]; exact hfx⟩

theorem insertState_keys (p : ℕ) (s : TwinkleState) (l : List (ℕ × TwinkleState)) :
    slotKeys (insertState p s l) =
      if (l.any fun ps => ps.1 = p) then slotKeys l else p :: slotKeys l := by
  rw [insertState]
  split_ifs with h
  · rw [slotKeys, List.map_map, slotKeys]
    refine List.map_congr_left fun a _ => ?_
    by_cases ha : a.1 = p
    · simp [ha]
    · simp [ha]
  · rfl

theorem insertState_length_le (p : ℕ) (s : TwinkleState) (l : List (ℕ × TwinkleState)) :
    (insertState p s l).length ≤ l.length + 1 := by
  rw [insertState]; split_ifs <;> simp

theorem insertState_length_ge (p : ℕ) (s : TwinkleState) (l : List (ℕ × TwinkleState)) :
    l.length ≤ (insertState p s l).length := by
  rw [insertState]; split_ifs <;> simp

theorem insertState_length_of_not_mem (p : ℕ) (s : TwinkleState)
    (l : List (ℕ × TwinkleState)) (h : p ∉ slotKeys l) :
    (insertState p s l).length = l.length + 1 := by
  rw [insertState, if_neg (fun hh => h ((any_fst_eq l p).mp hh))]
  rfl

theorem insertState_inv (anchors : List ℕ) (p : ℕ) (s : TwinkleState)
    (l : List (ℕ × TwinkleState)) (hp : p ∈ anchors) (h : SlotInv anchors l) :
    SlotInv anchors (insertState p s l) := by
  obtain ⟨hnd, hsub⟩ := h
  rw [SlotInv, insertState_keys]
  split_ifs with hc
  · exact ⟨hnd, hsub⟩
  · refine ⟨List.nodup_cons.mpr ⟨fun hm => hc ((any_fst_eq l p).mpr hm), hnd⟩, ?_⟩
    intro k hk
    rcases List.mem_cons.mp hk with rfl | hk
    · exact hp
    · exact hsub k hk

theorem nodup_subset_length_le {l l' : List ℕ} (h : l.Nodup) (hs : ∀ x ∈ l, x ∈ l') :
    l.length ≤ l'.length := by
  calc l.length = l.toFinset.card := (List.toFinset_card_of_nodup h).symm
    _ ≤ l'.toFinset.card :=
      Finset.card_le_card fun x hx => List.mem_toFinset.mpr (hs x (List.mem_toFinset.mp hx))
    _ ≤ l'.length := List.toFinset_card_le l'

theorem slotInv_length_le (anchors : List ℕ) (st : List (ℕ × TwinkleState))
    (h : SlotInv anchors st) : st.length ≤ anchors.length := by
  rw [← slotKeys_length]
  exact nodup_subset_length_le h.1 h.2

theorem twinkleRetain_keys_sublist (states : List (ℕ × TwinkleState)) :
    List.Sublist (slotKeys (twinkleRetain states)) (slotKeys states) := by
  have h1 : List.Sublist (twinkleRetain states)
      (states.map fun ps => (ps.1, { ps.2 with phase := ps.2.phase + 1 / ps.2.duration })) :=
    List.filter_sublist _
  have h2 := h1.map Prod.fst
  have h3 : (states.map fun ps =>
      (ps.1, { ps.2 with phase := ps.2.phase + 1 / ps.2.duration })).map Prod.fst =
      states.map Prod.fst := by
    rw [List.map_map]
    exact List.map_congr_left fun a _ => rfl
  rw [h3] at h2
  exact h2

theorem twinkleRetain_inv (anchors : List ℕ) (states : List (ℕ × TwinkleState))
    (h : SlotInv anchors states) : SlotInv anchors (twinkleRetain states) :=
  ⟨List.Nodup.sublist (twinkleRetain_keys_sublist states) h.1,
   fun k hk => h.2 k ((twinkleRetain_keys_sublist states).subset hk)⟩

theorem twinkleRetain_length_le (states : List (ℕ × TwinkleState)) :
    (twinkleRetain states).length ≤ states.length := by
  rw [twinkleRetain]
  refine le_trans (List.length_filter_le _ _) ?_
  rw [List.length_map]

theorem foldl_preserve {α β : Type} (P : α → Prop) (g : α → β → α)
    (hg : ∀ a b, P a → P (g a b)) :
    ∀ (l : List β) (a : α), P a → P (l.foldl g a) := by
  intro l
  induction l with
  | nil => intro a ha; exact ha
  | cons b bs ih => intro a ha; rw [List.foldl_cons]; exact ih (g a b) (hg a b ha)

theorem foldl_length_le {β : Type}
    (g : List (ℕ × TwinkleState) → β → List (ℕ × TwinkleState))
    (hg : ∀ a b, (g a b).length ≤ a.length + 1) :
    ∀ (l : List β) (a), (l.foldl g a).length ≤ a.length + l.length := by
  intro l
  induction l with
  | nil => intro a; simp
  | cons b bs ih =>
    intro a
    rw [List.foldl_cons, List.length_cons]
    have h1 := ih (g a b)
    have h2 := hg a b
    omega

theorem foldl_length_ge {β : Type}
    (g : List (ℕ × TwinkleState) → β → List (ℕ × TwinkleState))
    (hg : ∀ a b, a.length ≤ (g a b).length) :
    ∀ (l : List β) (a), a.length ≤ (l.foldl g a).length := by
  intro l
  induction l with
  | nil => intro a; simp
  | cons b bs ih =>
    intro a
    rw [List.foldl_cons]
    exact le_trans (hg a b) (ih (g a b))

theorem mem_twinkleAvail (anchors : List ℕ) (states1 : List (ℕ × TwinkleState)) (p : ℕ) :
    p ∈ twinkleAvail anchors states1 ↔ p ∈ anchors ∧ p ∉ slotKeys states1 := by
  rw [twinkleAvail, List.mem_filter]
  constructor
  · rintro ⟨h1, h2⟩
    refine ⟨h1, fun hm => ?_⟩
    rw [Bool.not_eq_true'] at h2
    have := (any_fst_eq states1 p).mpr hm
    simp [this] at h2
  · rintro ⟨h1, h2⟩
    refine ⟨h1, ?_⟩
    rw [Bool.not_eq_true']
    cases hany : (states1.any fun ps => ps.1 = p) with
    | false => rfl
    | true => exact absurd ((any_fst_eq states1 p).mp hany) h2

theorem twinkleAvail_length_ne_zero (anchors : List ℕ)
    (states1 : List (ℕ × TwinkleState)) (hnd : anchors.Nodup)
    (hlt : states1.length < anchors.length) :
    (twinkleAvail anchors states1).length ≠ 0 := by
  intro h0
  have hnil : twinkleAvail anchors states1 = [] := List.length_eq_zero.mp h0
  have hall : ∀ p ∈ anchors, p ∈ slotKeys states1 := by
    intro p hp
    by_cases hm : p ∈ slotKeys states1
    · exact hm
    · have : p ∈ twinkleAvail anchors states1 := (mem_twinkleAvail _ _ _).mpr ⟨hp, hm⟩
      rw [hnil] at this
      exact absurd this (List.not_mem_nil p)
  have := nodup_subset_length_le hnd hall
  rw [slotKeys_length] at this
  omega

theorem twinkleSpawn_inv (anchors : List ℕ) (r : FrameRand) (tc : ℕ)
    (states1 : List (ℕ × TwinkleState)) (h : SlotInv anchors states1) :
    SlotInv anchors (twinkleSpawn anchors r tc states1) := by
  rw [twinkleSpawn]
  refine foldl_preserve (SlotInv anchors) _ ?_ _ states1 h
  intro a b hP
  dsimp only
  split_ifs with hav
  · refine insertState_inv anchors _ _ a ?_ hP
    have hmem := List.get_mem (twinkleAvail anchors states1)
      (r.pick b % (twinkleAvail anchors states1).length) (Nat.mod_lt _ (Nat.pos_of_ne_zero hav))
    exact ((mem_twinkleAvail anchors states1 _).mp hmem).1
  · exact hP

theorem twinkleSpawn_length_le (anchors : List ℕ) (r : FrameRand) (tc : ℕ)
    (states1 : List (ℕ × TwinkleState)) :
    (twinkleSpawn anchors r tc states1).length ≤ states1.length + (tc - states1.length) := by
  rw [twinkleSpawn]
  refine le_trans (foldl_length_le _ ?_ _ states1) ?_
  · intro a b
    dsimp only
    split_ifs with hav
    · exact insertState_length_le _ _ a
    · omega
  · rw [List.length_range]

theorem twinkleSpawn_length_succ (anchors : List ℕ) (r : FrameRand) (tc : ℕ)
    (states1 : List (ℕ × TwinkleState))
    (hlt : states1.length < tc) (hav : (twinkleAvail anchors states1).length ≠ 0) :
    states1.length + 1 ≤ (twinkleSpawn anchors r tc states1).length := by
  rw [twinkleSpawn]
  obtain ⟨k, hk⟩ : ∃ k, tc - states1.length = k + 1 := ⟨tc - states1.length - 1, by omega⟩
  rw [hk, List.range_succ_eq_map, List.foldl_cons]
  refine le_trans ?_ (foldl_length_ge _ ?_ _ _)
  · dsimp only
    rw [dif_pos hav]
    have hmem := List.get_mem (twinkleAvail anchors states1)
      (r.pick 0 % (twinkleAvail anchors states1).length) (Nat.mod_lt _ (Nat.pos_of_ne_zero hav))
    have hnot : ((twinkleAvail anchors states1).get
        ⟨r.pick 0 % (twinkleAvail anchors states1).length,
         Nat.mod_lt _ (Nat.pos_of_ne_zero hav)⟩) ∉ slotKeys states1 :=
      ((mem_twinkleAvail anchors states1 _).mp hmem).2
    rw [insertState_length_of_not_mem _ _ _ hnot]
  · intro a b
    dsimp only
    split_ifs
    all_goals exact insertState_length_ge _ _ a

theorem twinkleFrameStep_inv (cfg : TwinkleConfig) (anchors : List ℕ) (r : FrameRand)
    (states st : List (ℕ × TwinkleState))
    (h : twinkleFrameStep cfg anchors r states = some st)
    (hinv : SlotInv anchors states) : SlotInv anchors st := by
  rw [twinkleFrameStep] at h
  split_ifs at h with hg
  · cases hdraw : twinkleCountDraw cfg anchors.length r.countChoice with
    | none => rw [hdraw] at h; exact absurd h (by simp)
    | some tc =>
      rw [hdraw] at h
      simp only [Option.map_some'] at h
      have hb := Option.some.inj h
      rw [← hb, twinkleFrameBody]
      split_ifs with hcur
      · exact twinkleSpawn_inv _ _ _ _ (twinkleRetain_inv _ _ hinv)
      · exact twinkleRetain_inv _ _ hinv
  · exact Option.some.inj h ▸ hinv

theorem twinkleRun_inv (cfg : TwinkleConfig) (anchors : List ℕ) (rs : ℕ → FrameRand) :
    ∀ (n : ℕ) (st : List (ℕ × TwinkleState)),
      twinkleRun cfg anchors rs n = some st → SlotInv anchors st := by
  intro n
  induction n with
  | zero =>
    intro st h
    rw [twinkleRun] at h
    rw [← Option.some.inj h]
    exact ⟨List.nodup_nil, by intro k hk; exact absurd hk (List.not_mem_nil k)⟩
  | succ n ih =>
    intro st h
    rw [twinkleRun] at h
    cases hrun : twinkleRun cfg anchors rs n with
    | none => rw [hrun] at h; exact absurd h (by simp)
    | some st' =>
      rw [hrun, Option.some_bind] at h
      exact twinkleFrameStep_inv cfg anchors (rs n) st' st h (ih st' hrun)

theorem twinkleCountDraw_cfg3 (cfg : TwinkleConfig) (c : ℕ)
    (hmn : cfg.minTwinkleCount = some 1) (hmx : cfg.maxTwinkleCount = some 3) :
    ∃ tc, twinkleCountDraw cfg 3 c = some tc ∧ 1 ≤ tc ∧ tc ≤ 3 := by
  obtain ⟨bc, tcc, sp, ea, du, cy, tr, mnc, mxc, tp, sm⟩ := cfg
  dsimp only at hmn hmx
  subst hmn hmx
  dsimp only [twinkleCountDraw]
  rw [genRangeIncl, if_pos (by norm_num : 1 ≤ min 3 3)]
  refine ⟨1 + c % (min 3 3 + 1 - 1), rfl, by omega, ?_⟩
  have h3 : (min 3 3 + 1 - 1) = 3 := by norm_num
  rw [h3]
  have : c % 3 < 3 := Nat.mod_lt _ (by norm_num)
  omega

theorem twinkleFrameStep_cfg3 (cfg : TwinkleConfig) (anchors : List ℕ) (r : FrameRand)
    (states : List (ℕ × TwinkleState))
    (hmn : cfg.minTwinkleCount = some 1) (hmx : cfg.maxTwinkleCount = some 3)
    (hnd : anchors.Nodup) (han : anchors.length = 3)
    (hlen : states.length ≤ 3) :
    ∃ st, twinkleFrameStep cfg anchors r states = some st ∧ st.length ≤ 3 ∧
      (r.gate = true → 1 ≤ st.length) := by
  by_cases hg : r.gate = true
  · obtain ⟨tc, hdraw, htc1, htc3⟩ := twinkleCountDraw_cfg3 cfg r.countChoice hmn hmx
    rw [twinkleFrameStep, if_pos hg, han, hdraw]
    simp only [Option.map_some']
    rw [twinkleFrameBody]
    have hlen1 : (twinkleRetain states).length ≤ states.length := twinkleRetain_length_le states
    by_cases hcur : (twinkleRetain states).length < tc
    · rw [if_pos hcur]
      have hav : (twinkleAvail anchors (twinkleRetain states)).length ≠ 0 :=
        twinkleAvail_length_ne_zero anchors (twinkleRetain states) hnd (by omega)
      refine ⟨_, rfl, ?_, fun _ => ?_⟩
      · have := twinkleSpawn_length_le anchors r tc (twinkleRetain states)
        omega
      · have := twinkleSpawn_length_succ anchors r tc (twinkleRetain states) hcur hav
        omega
    · rw [if_neg hcur]
      exact ⟨twinkleRetain states, rfl, by omega, fun _ => by omega⟩
  · rw [twinkleFrameStep, if_neg hg]
    exact ⟨states, rfl, hlen, fun h => absurd h hg⟩

/-- C3 (amended): the twinkle slot map is always a well-formed map — no anchor
is ever claimed by two slots, every claimed position is an eligible `'.'`
anchor, and (for distinct anchors) the slot count never exceeds the anchor
count; with `min_twinkle_count = 1`, `max_twinkle_count = 3` and exactly 3
anchors, the run never panics, the slot count is at most 3 at every frame,
and is at least 1 at every frame at or after the first frame whose random
activity gate fired (non-gated frames leave the slot map untouched) — it is
0 (not within `[1,3]`) only on frames before the first gate fire. -/
theorem twinkle_slots_amended :
    (∀ (cfg : TwinkleConfig) (anchors : List ℕ) (rs : ℕ → FrameRand) (n : ℕ)
      (st : List (ℕ × TwinkleState)), twinkleRun cfg anchors rs n = some st →
      (slotKeys st).Nodup ∧ (∀ k ∈ slotKeys st, k ∈ anchors) ∧
      (anchors.Nodup → st.length ≤ anchors.length)) ∧
    (∀ (cfg : TwinkleConfig) (anchors : List ℕ) (rs : ℕ → FrameRand),
      cfg.minTwinkleCount = some 1 → cfg.maxTwinkleCount = some 3 →
      anchors.Nodup → anchors.length = 3 →
      ∀ n : ℕ, ∃ st, twinkleRun cfg anchors rs n = some st ∧ st.length ≤ 3 ∧
        (∀ m : ℕ, m < n → (rs m).gate = true → 1 ≤ st.length)) := by
  constructor
  · intro cfg anchors rs n st h
    have hinv := twinkleRun_inv cfg anchors rs n st h
    exact ⟨hinv.1, hinv.2, fun _hnd => slotInv_length_le anchors st hinv⟩
  · intro cfg anchors rs hmn hmx hnd han n
    induction n with
    | zero => exact ⟨[], rfl, by simp, fun m hm => absurd hm (by omega)⟩
    | succ n ih =>
      obtain ⟨st', hrun, hlen', hlow'⟩ := ih
      by_cases hg : (rs n).gate = true
      · obtain ⟨st, hstep, hle, hgate⟩ :=
          twinkleFrameStep_cfg3 cfg anchors (rs n) st' hmn hmx hnd han hlen'
        refine ⟨st, ?_, hle, ?_⟩
        · rw [twinkleRun, hrun, Option.some_bind]
          exact hstep
        · intro m _hm _hgm
          exact hgate hg
      · refine ⟨st', ?_, hlen', ?_⟩
        · rw [twinkleRun, hrun, Option.some_bind, twinkleFrameStep, if_neg hg]
        · intro m hm hgm
          have hmlt : m < n := by
            rcases Nat.lt_succ_iff_lt_or_eq.mp hm with h | h
            · exact h
            · exact absurd (h ▸ hgm) hg
          exact hlow' m hmlt hgm

theorem twinkle_slots_amended_witness :
    ∃ st, twinkleRun
        ⟨⟨255, 255, 255⟩, ⟨255, 255, 0⟩, 100, .Linear, 3000, 1, none, some 1, some 3,
          4/5, false⟩
        [0, 1, 2] (fun _ => ⟨false, 0, fun _ => 0, fun _ => 30, fun _ => 3/20⟩) 1
        = some st ∧ st.length ≤ 3 ∧
      (∀ m : ℕ, m < 1 →
        ((fun _ => (⟨false, 0, fun _ => 0, fun _ => 30, fun _ => 3/20⟩ : FrameRand)) m).gate
          = true → 1 ≤ st.length) :=
  twinkle_slots_amended.2 _ [0, 1, 2] _ rfl rfl (by simp) rfl 1

/-- C3 (counterexample): with 3 anchors and `min = 1`, `max = 3`, a run whose
first frame's twinkle gate does not fire has an empty slot map after frame 1,
so the active-slot count is 0, outside the claimed range `[1, 3]`. -/
theorem twinkle_slots_cex :
    twinkleRun
      ⟨⟨255, 255, 255⟩, ⟨255, 255, 0⟩, 100, .Linear, 3000, 1, none, some 1, some 3,
        4/5, false⟩
      [0, 1, 2] (fun _ => ⟨false, 0, fun _ => 0, fun _ => 30, fun _ => 3/20⟩) 1
      = some [] ∧
    ¬ (1 ≤ ([] : List (ℕ × TwinkleState)).length) :=
  ⟨rfl, by simp⟩

/-! ## C8 — 2D distance formula vs its axis-aligned special cases -/

theorem general2dDistance_nonneg (x y : ℕ) (s : ℝ) (a : ℚ) :
    0 ≤ general2dDistance x y s a := by
  rw [general2dDistance]
  positivity

/-- C8 (code evaluation at the failing input): at `angle = 89.999` the
distance routine takes its `|x − shine_line|` special case, yielding `10` for
the cell `(x,y) = (10,0)` with `shine_line = 0`, while the general diagonal
formula evaluates to less than `0.01` at the same inputs (it reduces to
`|y − shine_line|` as the angle approaches 90); the two branches differ by
more than `9`, so the general formula does not agree with the special case
within floating tolerance. -/
theorem shine2d_distance_mismatch :
    shine2dDistance 10 0 0 (89999/1000) = 10 ∧
    general2dDistance 10 0 0 (89999/1000) < 1/100 ∧
    9 < |shine2dDistance 10 0 0 (89999/1000) - general2dDistance 10 0 0 (89999/1000)| := by
  have c1 : ¬ (|(89999/1000 : ℚ)| < 1/100) := by
    rw [abs_of_pos (by norm_num : (0:ℚ) < 89999/1000)]
    norm_num
  have c2 : |(89999/1000 : ℚ) - 90| < 1/100 := by
    rw [show (89999/1000 : ℚ) - 90 = -(1/1000) by norm_num, abs_neg,
      abs_of_pos (by norm_num : (0:ℚ) < 1/1000)]
    norm_num
  have h1 : shine2dDistance 10 0 0 (89999/1000) = 10 := by
    rw [shine2dDistance, if_neg c1, if_pos c2, sub_zero]
    rw [abs_of_nonneg (by positivity)]
    norm_num
  have hθeq : ((89999/1000 : ℚ) : ℝ) * Real.pi / 180 = Real.pi/2 - Real.pi/180000 := by
    push_cast
    ring
  have hεpos : (0:ℝ) < Real.pi/180000 := by positivity
  have hεle : Real.pi/180000 ≤ Real.pi :=
    div_le_self Real.pi_pos.le (by norm_num)
  have hsin_nonneg : 0 ≤ Real.sin (Real.pi/180000) :=
    Real.sin_nonneg_of_nonneg_of_le_pi hεpos.le hεle
  have hsin_lt : Real.sin (Real.pi/180000) < Real.pi/180000 := Real.sin_lt hεpos
  have hπ4 : Real.pi ≤ 4 := Real.pi_le_four
  have h2 : general2dDistance 10 0 0 (89999/1000) < 1/100 := by
    rw [general2dDistance, hθeq]
    have hcos : Real.cos (Real.pi/2 - Real.pi/180000) = Real.sin (Real.pi/180000) :=
      Real.cos_pi_div_two_sub _
    have hden : Real.cos (Real.pi/2 - Real.pi/180000) * Real.cos (Real.pi/2 - Real.pi/180000) +
        Real.sin (Real.pi/2 - Real.pi/180000) * Real.sin (Real.pi/2 - Real.pi/180000) = 1 := by
      have h := Real.sin_sq_add_cos_sq (Real.pi/2 - Real.pi/180000)
      nlinarith [h]
    rw [hden, Real.sqrt_one, div_one]
    have hy0 : ((0:ℕ):ℝ) = 0 := by norm_num
    have hx10 : ((10:ℕ):ℝ) = 10 := by norm_num
    rw [hy0, hx10, mul_zero, add_zero, sub_zero, hcos,
      abs_of_nonneg (mul_nonneg hsin_nonneg (by norm_num))]
    nlinarith [hsin_lt, hπ4]
  refine ⟨h1, h2, ?_⟩
  have hg0 : 0 ≤ general2dDistance 10 0 0 (89999/1000) := general2dDistance_nonneg _ _ _ _
  rw [h1, abs_of_nonneg (by linarith)]
  linarith

end Clifx
